import Mathlib

/-!
Verification of the PDF-to-PNG / OCR-extraction / page-aligned-viewer
repository.  Strings are modelled as `List Char`; the filesystem and the
vision-model client are modelled as explicit parameters (a presence
predicate on page numbers, an extraction oracle returning either text or
an error message).  Python `float` fields are modelled as `Rat` and
Python `int` as `Int`/`Nat`.
-/

namespace PdfOcr

/-! ### Decimal digits and zero-padded page numbers -/

/-- Numeric value of a decimal digit character (Python `int` on a digit). -/
def digitVal (c : Char) : Nat := c.toNat - 48

/-- Python `int(s)` on a nonempty string of decimal digits. -/
def digitsToNat (ds : List Char) : Nat := ds.foldl (fun a c => 10 * a + digitVal c) 0

/-- Decimal digit characters of `n`, most significant first (fuel-driven). -/
def natToDigitsAux : Nat → Nat → List Char
  | 0, _ => []
  | fuel + 1, n =>
    if n < 10 then [Nat.digitChar n]
    else natToDigitsAux fuel (n / 10) ++ [Nat.digitChar (n % 10)]

/-- Decimal digit characters of `n`, most significant first. -/
def natToDigits (n : Nat) : List Char := natToDigitsAux (n + 1) n

/-- Python `f-string` formatting of `n` with width 4 and zero padding. -/
def pad4 (n : Nat) : List Char :=
  let ds := natToDigits n
  List.replicate (4 - ds.length) '0' ++ ds

/-! ### Text Extraction Pipeline (`src/text_extract_from_image.py`, `process_png_files`)

The directory of images is a predicate `present : Nat → Bool` telling
whether `page_{n:04d}.png` exists; the per-page work inside the `try`
block (image load plus the vision call) is an oracle
`extract : Nat → Except (List Char) (List Char)` returning either the
extracted text or the message of the raised exception.  The `while True`
loop is driven by fuel; every claim quantifies over all sufficiently
large fuel values, so the fuel never truncates the modelled run. -/

/-- One markdown section appended to `output.md`: heading page number and body. -/
structure MdSection where
  page : Nat
  body : List Char
  deriving DecidableEq, Repr

/-- The literal error annotation written on a per-page failure. -/
def errorNote (msg : List Char) : List Char :=
  "*Error processing this page: ".toList ++ msg ++ "*".toList

/-- Body of the section appended for one page: the extracted text on
success, the error annotation on failure. -/
def sectionBody (r : Except (List Char) (List Char)) : List Char :=
  match r with
  | Except.ok text => text
  | Except.error msg => errorNote msg

/-- The `while True` loop of `process_png_files`: starting at `page_num`,
stop if `page_{page_num:04d}.png` is absent, otherwise append exactly one
section (success or error body), increment `page_num`, continue. -/
def runPipeline (present : Nat → Bool) (extract : Nat → Except (List Char) (List Char)) :
    Nat → Nat → List MdSection
  | 0, _ => []
  | fuel + 1, page_num =>
    if present page_num then
      ⟨page_num, sectionBody (extract page_num)⟩ ::
        runPipeline present extract fuel (page_num + 1)
    else []

/-- Function `process_png_files`: the sequence of markdown sections appended to
`output.md` (after the fixed title header), starting at page 1. -/
def process_png_files (present : Nat → Bool)
    (extract : Nat → Except (List Char) (List Char)) (fuel : Nat) : List MdSection :=
  runPipeline present extract fuel 1

/-! ### Page Exporter (`src/main.py`) -/

/-- Fields of `PDFConversionConfig` (pydantic model in `src/main.py`). -/
structure PDFConversionConfig where
  input_pdf : String
  output_dir : String
  contrast_factor : Rat
  dpi : Int
  grayscale : Bool

/-- Construction of `PDFConversionConfig`: pydantic validates
`contrast_factor ≥ 0` (field constraint `ge=0.0`) and `dpi > 0`
(field constraint `gt=0`) before anything else runs. -/
def mkPDFConversionConfig (input_pdf output_dir : String) (contrast_factor : Rat)
    (dpi : Int) (grayscale : Bool) : Option PDFConversionConfig :=
  if 0 ≤ contrast_factor ∧ 0 < dpi then
    some ⟨input_pdf, output_dir, contrast_factor, dpi, grayscale⟩
  else none

/-- Filename of the image for (1-based) page `k`: `page_{k:04d}.png`. -/
def pageFilename (k : Nat) : List Char :=
  "page_".toList ++ pad4 k ++ ".png".toList

/-- Observable outcome of `convert_pdf_to_png`: whether the output
directory was created, the raised error message if any, and the image
files written, in order. -/
structure ConvertOutcome where
  mkdirCalled : Bool
  error : Option String
  written : List (List Char)

/-- Function `convert_pdf_to_png` (src/main.py): make the output directory,
then raise `FileNotFoundError` if the input PDF is absent; otherwise
save one PNG per page, page `page_num` (0-indexed) going to
`page_{page_num+1:04d}.png`. -/
def convert_pdf_to_png (cfg : PDFConversionConfig) (pdfExists : Bool)
    (pageCount : Nat) : ConvertOutcome :=
  if pdfExists then
    ⟨true, none, (List.range pageCount).map (fun page_num => pageFilename (page_num + 1))⟩
  else
    ⟨true, some ("PDF file not found: " ++ cfg.input_pdf), []⟩

/-! ### Image Enhancer -/

/-- Modelled from the spec: the Image Enhancer's contrast transform,
"output pixel intensity = midpoint + factor × (input intensity −
midpoint), clamped to the valid intensity range".  The transform itself
lives in the external imaging library; `src/main.py` only invokes it
through `ImageEnhance.Contrast(img).enhance(factor)`. -/
def enhanceContrast (factor midpoint intensity : Rat) : Rat :=
  max 0 (min 255 (midpoint + factor * (intensity - midpoint)))

/-! ### Page-Aligned Markdown Parser (`src/ui.py`, `parse_markdown_by_pages`)

The regex `## Page (\d+)` is matched by a left-to-right scan: at each
position, if the literal `"## Page "` is followed by at least one decimal
digit, the match covers the literal plus the maximal digit run (group 1),
and scanning resumes after the match (`re.finditer` semantics, the
pattern can never produce overlapping or empty matches). -/

/-- Python whitespace characters removed by `str.strip()` (ASCII set). -/
def pyWs (c : Char) : Bool :=
  c == ' ' || c == '\t' || c == '\n' || c == '\r' ||
    c == Char.ofNat 11 || c == Char.ofNat 12

/-- Python `str.strip()`: drop leading and trailing whitespace. -/
def pyStrip (s : List Char) : List Char :=
  (((s.dropWhile pyWs).reverse).dropWhile pyWs).reverse

/-- The literal part of the heading pattern. -/
def headingLit : List Char := "## Page ".toList

/-- Attempt of the pattern `## Page (\d+)` at the head of `s`: on
success, the maximal nonempty digit run that is group 1. -/
def headMatch (s : List Char) : Option (List Char) :=
  if s.take 8 == headingLit then
    let ds := (s.drop 8).takeWhile Char.isDigit
    if ds.isEmpty then none else some ds
  else none

/-- Scan implementing `re.finditer`: `s` is the suffix of the document starting at
absolute position `pos`; `skip` positions at the front of `s` are inside
the previous match and are not match starts.  Returns the list of
(start position, group-1 digits) pairs in document order. -/
def scanAux : List Char → Nat → Nat → List (Nat × List Char)
  | [], _, _ => []
  | _ :: rest, pos, skip + 1 => scanAux rest (pos + 1) skip
  | s@(_ :: rest), pos, 0 =>
    match headMatch s with
    | some ds => (pos, ds) :: scanAux rest (pos + 1) (7 + ds.length)
    | none => scanAux rest (pos + 1) 0

/-- All matches of `## Page (\d+)` in `content`, in document order. -/
def findHeadings (content : List Char) : List (Nat × List Char) :=
  scanAux content 0 0

/-- Python dict assignment `d[k] = v`: overwrite in place if the key is
present (keeping its insertion position), else append. -/
def dictSet (d : List (Int × List Char)) (k : Int) (v : List Char) :
    List (Int × List Char) :=
  if d.any (fun p => p.1 == k) then
    d.map (fun p => if p.1 == k then (k, v) else p)
  else d ++ [(k, v)]

/-- End position of the current match's slice: the start of the next
match, or the end of the document after the last match. -/
def nextStart (content : List Char) (rest : List (Nat × List Char)) : Nat :=
  match rest with
  | [] => content.length
  | (q, _) :: _ => q

/-- The `for i, match in enumerate(matches)` loop: each match yields key
`int(group 1) - 1` and value `content[start:end].strip()` where `end` is
the next match's start, or the end of the document for the last match. -/
def buildPages (content : List Char) :
    List (Nat × List Char) → List (Int × List Char) → List (Int × List Char)
  | [], d => d
  | (p, ds) :: rest, d =>
    buildPages content rest
      (dictSet d ((digitsToNat ds : Int) - 1)
        (pyStrip ((content.drop p).take (nextStart content rest - p))))

/-- The slicing loop's entries in match order, before dict assignment
(used to state what `buildPages` produces when all keys are distinct). -/
def entriesOf (content : List Char) : List (Nat × List Char) → List (Int × List Char)
  | [] => []
  | (p, ds) :: rest =>
    ((digitsToNat ds : Int) - 1,
      pyStrip ((content.drop p).take (nextStart content rest - p))) ::
      entriesOf content rest

/-- Body of `parse_markdown_by_pages` once the file has been read: if the
pattern has no match, a single entry at key 0 holding the full text
(unstripped); otherwise the dict built by the slicing loop. -/
def parsePages (content : List Char) : List (Int × List Char) :=
  let ms := findHeadings content
  if ms.isEmpty then [(0, content)]
  else buildPages content ms []

/-- Function `parse_markdown_by_pages` (src/ui.py): returns the empty dict when
the markdown file does not exist, else parses its content.  The
filesystem is modelled by the optional file content. -/
def parse_markdown_by_pages (file : Option (List Char)) : List (Int × List Char) :=
  match file with
  | none => []
  | some content => parsePages content

/-- Derived page count `max(markdown_pages.keys()) + 1 if markdown_pages
else 0` (src/ui.py). -/
def markdown_total_pages (pages : List (Int × List Char)) : Int :=
  match (pages.map Prod.fst).max? with
  | none => 0
  | some m => m + 1

/-! ### Pipeline lemmas -/

/-- The pipeline loop stops immediately when the expected file is absent. -/
theorem runPipeline_stop (present : Nat → Bool)
    (extract : Nat → Except (List Char) (List Char)) (fuel page : Nat)
    (h : present page = false) : runPipeline present extract fuel page = [] := by
  cases fuel with
  | zero => rfl
  | succ f => simp [runPipeline, h]

/-- With pages `start, …, start+K-1` present and `start+K` absent, the
loop emits exactly one section per present page, in order. -/
theorem runPipeline_eq_map (present : Nat → Bool)
    (extract : Nat → Except (List Char) (List Char)) :
    ∀ (K start fuel : Nat), K + 1 ≤ fuel →
      (∀ j, j < K → present (start + j) = true) →
      present (start + K) = false →
      runPipeline present extract fuel start
        = (List.range' start K).map (fun n => ⟨n, sectionBody (extract n)⟩) := by
  intro K
  induction K with
  | zero =>
    intro start fuel hfuel hall hgap
    simp only [Nat.add_zero] at hgap
    simp [runPipeline_stop present extract fuel start hgap]
  | succ K ih =>
    intro start fuel hfuel hall hgap
    obtain ⟨f, rfl⟩ : ∃ f, fuel = f + 1 := ⟨fuel - 1, by omega⟩
    have h0 : present start = true := by simpa using hall 0 (by omega)
    rw [List.range'_succ]
    simp only [runPipeline, h0, if_true, List.map_cons]
    congr 1
    exact ih (start + 1) f (by omega)
      (fun j hj => by
        have := hall (j + 1) (by omega)
        rwa [show start + (j + 1) = start + 1 + j by omega] at this)
      (by rwa [show start + 1 + K = start + (K + 1) by omega])

/-! ### Claim theorems -/

/-- Claim C1: the Text Extraction Pipeline processes images strictly by
expected next page number starting at 1 and terminates at the first
absent numbered file: whenever `page_0003.png` is missing and
`page_0004.png` exists, every emitted section is for page 1 or page 2,
page 4 is never processed, and when pages 1 and 2 are present the
sections are exactly those of pages 1 and 2 in order. -/
theorem claim_C1 (present : Nat → Bool)
    (extract : Nat → Except (List Char) (List Char)) (fuel : Nat)
    (h3 : present 3 = false) (h4 : present 4 = true) (hfuel : 3 ≤ fuel) :
    (∀ s ∈ process_png_files present extract fuel, s.page = 1 ∨ s.page = 2) ∧
    (∀ s ∈ process_png_files present extract fuel, s.page ≠ 4) ∧
    (present 1 = true → present 2 = true →
      (process_png_files present extract fuel).map MdSection.page = [1, 2]) := by
  obtain ⟨f, rfl⟩ : ∃ f, fuel = f + 3 := ⟨fuel - 3, by omega⟩
  have hout : process_png_files present extract (f + 3) =
      if present 1 then
        if present 2 then
          [⟨1, sectionBody (extract 1)⟩, ⟨2, sectionBody (extract 2)⟩]
        else [⟨1, sectionBody (extract 1)⟩]
      else [] := by
    cases hp1 : present 1 <;> cases hp2 : present 2 <;>
      simp [process_png_files, runPipeline, hp1, hp2, h3]
  rw [hout]
  cases hp1 : present 1 <;> cases hp2 : present 2 <;> simp

/-- Claim C2: whenever pages `1..K` are present and page `K+1` is absent,
the pipeline emits exactly one section per attempted page in increasing
page order (pages `1..K`), the section count `K` does not depend on
which pages fail, and a page whose processing raises an error gets a
section holding the literal error annotation for its message. -/
theorem claim_C2 (present : Nat → Bool)
    (extract : Nat → Except (List Char) (List Char)) (K fuel : Nat)
    (hfuel : K + 1 ≤ fuel)
    (hpresent : ∀ n, n < K → present (n + 1) = true)
    (hgap : present (K + 1) = false) :
    (process_png_files present extract fuel).map MdSection.page = List.range' 1 K ∧
    (process_png_files present extract fuel).length = K ∧
    (∀ i msg, i < K → extract (i + 1) = Except.error msg →
      (process_png_files present extract fuel).get? i
        = some ⟨i + 1, errorNote msg⟩) := by
  have hrun : process_png_files present extract fuel
      = (List.range' 1 K).map (fun n => ⟨n, sectionBody (extract n)⟩) := by
    apply runPipeline_eq_map present extract K 1 fuel hfuel
    · intro j hj
      simpa [Nat.add_comm] using hpresent j hj
    · simpa [Nat.add_comm] using hgap
  rw [hrun]
  refine ⟨?_, ?_, ?_⟩
  · rw [List.map_map]
    exact List.map_id'' (fun x => rfl) _
  · rw [List.length_map, List.length_range']
  · intro i msg hi hext
    rw [List.get?_eq_getElem?, List.getElem?_map, List.getElem?_range' 1 1 hi]
    simp only [Option.map_some']
    have h1 : 1 + 1 * i = i + 1 := by omega
    rw [h1, hext]
    rfl

/-- Witness for C1 at a concrete directory holding pages 1, 2 and 4. -/
theorem claim_C1_witness :
    ((fun n => n == 1 || n == 2 || n == 4) 3 = false) ∧
    ((fun n => n == 1 || n == 2 || n == 4) 4 = true) ∧ 3 ≤ 5 ∧
    (process_png_files (fun n => n == 1 || n == 2 || n == 4)
        (fun _ => Except.ok "ok".toList) 5).map MdSection.page = [1, 2] :=
  ⟨by decide, by decide, by decide,
    (claim_C1 (fun n => n == 1 || n == 2 || n == 4)
      (fun _ => Except.ok "ok".toList) 5 (by decide) (by decide)
      (by decide)).2.2 (by decide) (by decide)⟩

/-- Witness for C2 at a concrete one-page directory whose only page
fails to extract. -/
theorem claim_C2_witness :
    1 + 1 ≤ 3 ∧ (∀ n, n < 1 → ((n + 1) == 1) = true) ∧ ((1 + 1 == 1) = false) ∧
    (process_png_files (fun n => n == 1)
        (fun _ => Except.error "boom".toList) 3).get? 0
      = some ⟨1, errorNote "boom".toList⟩ :=
  ⟨by decide, by decide, by decide,
    (claim_C2 (fun n => n == 1) (fun _ => Except.error "boom".toList) 1 3
        (by decide) (by decide) (by decide)).2.2 0 "boom".toList
      (by decide) rfl⟩

/-- Claim C4: with an existing input PDF of `pageCount` pages, the Page
Exporter writes exactly `pageCount` image files, and the `k`-th page
(1-based) is written to `page_{k:04d}.png`. -/
theorem claim_C4 (cfg : PDFConversionConfig) (pageCount : Nat) :
    (convert_pdf_to_png cfg true pageCount).written.length = pageCount ∧
    (∀ k, 1 ≤ k → k ≤ pageCount →
      (convert_pdf_to_png cfg true pageCount).written.get? (k - 1)
        = some (pageFilename k)) := by
  constructor
  · simp [convert_pdf_to_png]
  · intro k h1 h2
    have hk : k - 1 < pageCount := by omega
    show ((List.range pageCount).map (fun page_num => pageFilename (page_num + 1))).get? (k - 1)
      = some (pageFilename k)
    rw [List.get?_eq_getElem?, List.getElem?_map, List.getElem?_range hk]
    simp only [Option.map_some']
    have hk1 : k - 1 + 1 = k := by omega
    rw [hk1]

/-- Witness for C4 with a three-page PDF: three files, page 2 going to
`page_0002.png`. -/
theorem claim_C4_witness :
    (convert_pdf_to_png ⟨"AR2024_C.pdf", "png_output", 2, 300, true⟩ true 3).written.length = 3 ∧
    (1 ≤ 2 ∧ 2 ≤ 3) ∧
    (convert_pdf_to_png ⟨"AR2024_C.pdf", "png_output", 2, 300, true⟩ true 3).written.get? 1
      = some (pageFilename 2) :=
  ⟨(claim_C4 ⟨"AR2024_C.pdf", "png_output", 2, 300, true⟩ 3).1,
    ⟨by decide, by decide⟩,
    (claim_C4 ⟨"AR2024_C.pdf", "png_output", 2, 300, true⟩ 3).2 2 (by decide) (by decide)⟩

/-- Claim C7: the contrast transform is
`clamp (midpoint + factor * (intensity - midpoint))`; factor 1 is the
identity on every valid intensity and factor 0 collapses every pixel to
the midpoint. -/
theorem claim_C7 (m i : Rat) (hm0 : 0 ≤ m) (hm1 : m ≤ 255)
    (hi0 : 0 ≤ i) (hi1 : i ≤ 255) :
    (∀ f : Rat, enhanceContrast f m i = max 0 (min 255 (m + f * (i - m)))) ∧
    enhanceContrast 1 m i = i ∧
    enhanceContrast 0 m i = m := by
  refine ⟨fun f => rfl, ?_, ?_⟩
  · unfold enhanceContrast
    have h : m + 1 * (i - m) = i := by ring
    rw [h, min_eq_right hi1, max_eq_right hi0]
  · unfold enhanceContrast
    have h : m + 0 * (i - m) = m := by ring
    rw [h, min_eq_right hm1, max_eq_right hm0]

/-- Witness for C7 at midpoint 128 and intensity 37. -/
theorem claim_C7_witness :
    (0 ≤ (128 : Rat) ∧ (128 : Rat) ≤ 255 ∧ 0 ≤ (37 : Rat) ∧ (37 : Rat) ≤ 255) ∧
    enhanceContrast 1 128 37 = 37 ∧ enhanceContrast 0 128 37 = 128 :=
  ⟨⟨by norm_num, by norm_num, by norm_num, by norm_num⟩,
    (claim_C7 128 37 (by norm_num) (by norm_num) (by norm_num) (by norm_num)).2.1,
    (claim_C7 128 37 (by norm_num) (by norm_num) (by norm_num) (by norm_num)).2.2⟩

/-- Claim C8: when the source PDF does not exist, `convert_pdf_to_png`
raises the "PDF file not found" error and writes no page image file,
for every configuration and page count. -/
theorem claim_C8 (cfg : PDFConversionConfig) (pageCount : Nat) :
    (convert_pdf_to_png cfg false pageCount).error
      = some ("PDF file not found: " ++ cfg.input_pdf) ∧
    (convert_pdf_to_png cfg false pageCount).written = [] :=
  ⟨rfl, rfl⟩

/-- Claim C9: configuration construction succeeds exactly when the
contrast factor is nonnegative (0 included) and the DPI is positive;
negative contrast or nonpositive DPI is rejected at construction. -/
theorem claim_C9 (ip od : String) (cf : Rat) (dpi : Int) (gs : Bool) :
    (mkPDFConversionConfig ip od cf dpi gs).isSome = true ↔ (0 ≤ cf ∧ 0 < dpi) := by
  unfold mkPDFConversionConfig
  split <;> simp_all

/-- Claim C6: when the page-heading pattern has no occurrence in the
markdown text, the parser returns the single-entry map sending key 0 to
the full input text. -/
theorem claim_C6 (content : List Char) (h : findHeadings content = []) :
    parsePages content = [(0, content)] := by
  simp [parsePages, h]

/-- Witness for C6 on a heading-free markdown string. -/
theorem claim_C6_witness :
    findHeadings "hello world".toList = [] ∧
    parsePages "hello world".toList = [(0, "hello world".toList)] :=
  ⟨by decide, claim_C6 "hello world".toList (by decide)⟩

/-- Looking a key up after a dict overwrite-in-place pass: the key being
written reads back the new value when present; other keys are untouched.
No distinctness of keys in `d` is assumed. -/
theorem lookup_overwriteMap (d : List (Int × List Char)) (k : Int) (v : List Char)
    (a : Int) :
    (d.map (fun p => if p.1 == k then (k, v) else p)).lookup a
      = if a = k then (if d.any (fun p => p.1 == k) then some v else none)
        else d.lookup a := by
  induction d with
  | nil => by_cases h : a = k <;> simp [h]
  | cons e d ih =>
    obtain ⟨e1, e2⟩ := e
    simp only [beq_iff_eq] at ih
    simp only [List.map_cons, List.any_cons]
    by_cases hek : e1 = k
    · subst hek
      by_cases hak : a = e1
      · subst hak
        simp [List.lookup_cons]
      · have hb : (a == e1) = false := beq_eq_false_iff_ne.mpr hak
        simp [List.lookup_cons, hb, hak, ih]
    · by_cases hak : a = k
      · subst hak
        have hae : ¬a = e1 := fun h => hek h.symm
        have hb : (a == e1) = false := beq_eq_false_iff_ne.mpr hae
        have hb2 : (e1 == a) = false := beq_eq_false_iff_ne.mpr hek
        simp [List.lookup_cons, hb, hek, ih]
        rw [hb2, Bool.false_or]
      · by_cases hea : e1 = a
        · subst hea
          simp [List.lookup_cons, hek, hak]
        · have hae : ¬a = e1 := fun h => hea h.symm
          have hb : (a == e1) = false := beq_eq_false_iff_ne.mpr hae
          simp [List.lookup_cons, hb, hek, hak, ih]

/-- Python dict assignment then lookup: the assigned key reads back the
assigned value, every other key is unchanged.  Holds for any `d`. -/
theorem lookup_dictSet (d : List (Int × List Char)) (k : Int) (v : List Char)
    (a : Int) :
    (dictSet d k v).lookup a = if a = k then some v else d.lookup a := by
  unfold dictSet
  by_cases hany : d.any (fun p => p.1 == k)
  · rw [if_pos hany, lookup_overwriteMap]
    by_cases hak : a = k
    · simp [hak, hany]
    · simp [hak]
  · rw [if_neg hany, List.lookup_append]
    by_cases hak : a = k
    · subst hak
      have hnone : d.lookup a = none := by
        rw [List.lookup_eq_none_iff]
        intro p hp
        have hpk : (p.1 == a) = false := by
          cases hb : p.1 == a
          · rfl
          · exact absurd (List.any_eq_true.mpr ⟨p, hp, hb⟩) hany
        have hne : ¬p.1 = a := by simpa using hpk
        simpa [bne_iff_ne] using fun h => hne h.symm
      rw [hnone]
      simp
    · have hsing : ([(k, v)] : List (Int × List Char)).lookup a = none := by
        rw [List.lookup_eq_none_iff]
        intro p hp
        rcases List.mem_singleton.mp hp with rfl
        simpa [bne_iff_ne] using hak
      rw [hsing, Option.or_none, if_neg hak]

/-- The dict built by the slicing loop, read at any key: the result is
the LAST entry of `entriesOf` carrying that key (later occurrences
overwrite earlier ones), falling back to the initial dict.  No
assumption on duplicate or out-of-order heading values. -/
theorem lookup_buildPages (content : List Char) :
    ∀ (ms : List (Nat × List Char)) (d : List (Int × List Char)) (a : Int),
      (buildPages content ms d).lookup a
        = (((entriesOf content ms).reverse.find? (fun e => e.1 == a)).map
            Prod.snd).or (d.lookup a) := by
  intro ms
  induction ms with
  | nil =>
    intro d a
    simp [buildPages, entriesOf]
  | cons m rest ih =>
    intro d a
    obtain ⟨p, ds⟩ := m
    simp only [buildPages, entriesOf, List.reverse_cons]
    rw [ih, List.find?_append, lookup_dictSet]
    cases hf : (entriesOf content rest).reverse.find? (fun e => e.1 == a) with
    | some e => simp [hf]
    | none =>
      by_cases hka : a = (digitsToNat ds : Int) - 1
      · simp [hf, hka]
      · have hne : (((digitsToNat ds : Int) - 1) == a) = false := by
          simp
          exact fun h => hka h.symm
        simp [hf, List.find?_cons, hne, hka]

/-- Claim C5: for every markdown input containing headings — duplicate
and out-of-order numeric values included — the parser maps each
heading's numeric value minus one to that occurrence's slice (from the
heading's start to the next heading's start, or the end of the text,
stripped), with later occurrences silently overwriting earlier ones at
the same key: the value at any key is the LAST entry with that key.  In
particular, an input whose two matches are identical headings yields a
map where the common key holds only the second occurrence's slice. -/
theorem claim_C5 (content : List Char) (ms : List (Nat × List Char))
    (hms : findHeadings content = ms) (hne : ms ≠ []) :
    (∀ k : Int, (parsePages content).lookup k
        = ((entriesOf content ms).reverse.find? (fun e => e.1 == k)).map Prod.snd) ∧
    (∀ p₁ ds₁ p₂ ds₂, ms = [(p₁, ds₁), (p₂, ds₂)] →
      digitsToNat ds₁ = digitsToNat ds₂ →
      parsePages content
        = [((digitsToNat ds₂ : Int) - 1,
            pyStrip ((content.drop p₂).take (content.length - p₂)))]) := by
  have hparse : parsePages content = buildPages content ms [] := by
    unfold parsePages
    rw [hms]
    have hie : ms.isEmpty = false := List.isEmpty_eq_false.mpr hne
    show (if ms.isEmpty = true then [((0 : Int), content)]
      else buildPages content ms []) = buildPages content ms []
    rw [hie]
    simp
  constructor
  · intro k
    rw [hparse, lookup_buildPages]
    simp
  · intro p₁ ds₁ p₂ ds₂ hmseq hsame
    subst hmseq
    have hk : ((digitsToNat ds₁ : Int) - 1) = ((digitsToNat ds₂ : Int) - 1) := by
      rw [hsame]
    simp [hparse, buildPages, dictSet, hk, nextStart]

/-- Witness for C5 on a string with two identical `## Page 0001`
headings: the general lookup law holds at key 0, and key 0 holds only
the second occurrence's slice. -/
theorem claim_C5_witness :
    findHeadings "## Page 0001\nA\n## Page 0001\nB".toList
      = [(0, ['0', '0', '0', '1']), (15, ['0', '0', '0', '1'])] ∧
    ([((0 : Nat), ['0', '0', '0', '1']), (15, ['0', '0', '0', '1'])]
      ≠ ([] : List (Nat × List Char))) ∧
    (parsePages "## Page 0001\nA\n## Page 0001\nB".toList).lookup 0
      = ((entriesOf "## Page 0001\nA\n## Page 0001\nB".toList
          [(0, ['0', '0', '0', '1']), (15, ['0', '0', '0', '1'])]).reverse.find?
            (fun e => e.1 == 0)).map Prod.snd ∧
    parsePages "## Page 0001\nA\n## Page 0001\nB".toList
      = [((digitsToNat ['0', '0', '0', '1'] : Int) - 1,
          pyStrip (("## Page 0001\nA\n## Page 0001\nB".toList.drop 15).take
            ("## Page 0001\nA\n## Page 0001\nB".toList.length - 15)))] :=
  ⟨by decide, by decide,
    (claim_C5 "## Page 0001\nA\n## Page 0001\nB".toList
      [(0, ['0', '0', '0', '1']), (15, ['0', '0', '0', '1'])]
      (by decide) (by decide)).1 0,
    (claim_C5 "## Page 0001\nA\n## Page 0001\nB".toList
      [(0, ['0', '0', '0', '1']), (15, ['0', '0', '0', '1'])]
      (by decide) (by decide)).2 0 ['0', '0', '0', '1'] 15 ['0', '0', '0', '1']
      rfl rfl⟩

/-- Claim C10: when the markdown file does not exist the parser returns
the empty map (never the single-entry full-text fallback), so the
derived page count `markdown_total_pages` is 0. -/
theorem claim_C10 :
    parse_markdown_by_pages none = [] ∧
    markdown_total_pages (parse_markdown_by_pages none) = 0 ∧
    ∀ t, parse_markdown_by_pages none ≠ [(0, t)] := by
  refine ⟨rfl, rfl, ?_⟩
  intro t h
  simp [parse_markdown_by_pages] at h

/-! ### Decimal round-trip lemmas (for C3) -/

theorem digitVal_digitChar (d : Nat) (h : d < 10) : digitVal (Nat.digitChar d) = d := by
  interval_cases d <;> decide

theorem isDigit_digitChar (d : Nat) (h : d < 10) : (Nat.digitChar d).isDigit = true := by
  interval_cases d <;> decide

theorem digitsToNat_append_singleton (xs : List Char) (c : Char) :
    digitsToNat (xs ++ [c]) = 10 * digitsToNat xs + digitVal c := by
  unfold digitsToNat
  rw [List.foldl_append]
  rfl

theorem digitsToNat_natToDigitsAux :
    ∀ (fuel n : Nat), n < fuel → digitsToNat (natToDigitsAux fuel n) = n := by
  intro fuel
  induction fuel with
  | zero => intro n h; omega
  | succ f ih =>
    intro n h
    by_cases h10 : n < 10
    · simp only [natToDigitsAux, h10, if_true]
      show 10 * 0 + digitVal (Nat.digitChar n) = n
      rw [digitVal_digitChar n h10]
      omega
    · simp only [natToDigitsAux, h10, if_false]
      rw [digitsToNat_append_singleton]
      have hdiv : n / 10 < f := by omega
      rw [ih (n / 10) hdiv, digitVal_digitChar (n % 10) (by omega)]
      omega

theorem digitsToNat_natToDigits (n : Nat) : digitsToNat (natToDigits n) = n :=
  digitsToNat_natToDigitsAux (n + 1) n (by omega)

theorem digitsToNat_replicate_zero (k : Nat) :
    digitsToNat (List.replicate k '0') = 0 := by
  induction k with
  | zero => rfl
  | succ m ih =>
    show (List.replicate (m + 1) '0').foldl (fun a c => 10 * a + digitVal c) 0 = 0
    rw [List.replicate_succ]
    show (List.replicate m '0').foldl (fun a c => 10 * a + digitVal c) (10 * 0 + digitVal '0') = 0
    exact ih

theorem digitsToNat_pad4 (n : Nat) : digitsToNat (pad4 n) = n := by
  unfold pad4 digitsToNat
  rw [List.foldl_append]
  have h0 : digitsToNat (List.replicate (4 - (natToDigits n).length) '0') = 0 :=
    digitsToNat_replicate_zero _
  unfold digitsToNat at h0
  rw [h0]
  exact digitsToNat_natToDigits n

theorem natToDigitsAux_ne_nil (fuel n : Nat) : natToDigitsAux (fuel + 1) n ≠ [] := by
  by_cases h10 : n < 10 <;> simp [natToDigitsAux, h10]

theorem pad4_ne_nil (n : Nat) : pad4 n ≠ [] := by
  unfold pad4 natToDigits
  intro h
  rcases List.append_eq_nil.mp h with ⟨_, h2⟩
  exact natToDigitsAux_ne_nil n n h2

theorem isDigit_of_mem_natToDigitsAux :
    ∀ (fuel n : Nat), ∀ c ∈ natToDigitsAux fuel n, c.isDigit = true := by
  intro fuel
  induction fuel with
  | zero => intro n c hc; simp [natToDigitsAux] at hc
  | succ f ih =>
    intro n c hc
    by_cases h10 : n < 10
    · simp only [natToDigitsAux, h10, if_true, List.mem_singleton] at hc
      rw [hc]; exact isDigit_digitChar n h10
    · simp only [natToDigitsAux, h10, if_false, List.mem_append, List.mem_singleton] at hc
      rcases hc with hc | hc
      · exact ih (n / 10) c hc
      · rw [hc]; exact isDigit_digitChar (n % 10) (by omega)

theorem isDigit_of_mem_pad4 (n : Nat) : ∀ c ∈ pad4 n, c.isDigit = true := by
  intro c hc
  unfold pad4 at hc
  rcases List.mem_append.mp hc with hc | hc
  · rw [List.eq_of_mem_replicate hc]; decide
  · exact isDigit_of_mem_natToDigitsAux (n + 1) n c hc

theorem pyWs_eq_false_of_isDigit (c : Char) (h : c.isDigit = true) : pyWs c = false := by
  cases hw : pyWs c
  · rfl
  · exfalso
    simp only [pyWs, Bool.or_eq_true, beq_iff_eq] at hw
    rcases hw with ((((rfl | rfl) | rfl) | rfl) | rfl) | rfl <;> exact absurd h (by decide)

/-! ### `pyStrip` keeps a front block whose ends are not whitespace -/

theorem pyStrip_keeps (u t : List Char) (hu : u ≠ [])
    (hh : ∀ c, u.head? = some c → pyWs c = false)
    (hl : ∀ c, u.getLast? = some c → pyWs c = false) :
    ∃ t', pyStrip (u ++ t) = u ++ t' := by
  obtain ⟨c, u', rfl⟩ := List.exists_cons_of_ne_nil hu
  have hc : pyWs c = false := hh c rfl
  have hrev : (c :: u').reverse.dropWhile pyWs = (c :: u').reverse := by
    cases hr : (c :: u').reverse with
    | nil => simp at hr
    | cons d w' =>
      have hd : (c :: u').getLast? = some d := by
        rw [List.getLast?_eq_head?_reverse, hr]
        rfl
      rw [List.dropWhile_cons, hl d hd]
      simp
  unfold pyStrip
  rw [List.cons_append, List.dropWhile_cons, hc]
  simp only [Bool.false_eq_true, if_false]
  rw [show (c :: (u' ++ t)) = (c :: u') ++ t from rfl, List.reverse_append,
    List.dropWhile_append]
  by_cases he : (t.reverse.dropWhile pyWs).isEmpty
  · rw [if_pos he, hrev]
    exact ⟨[], by simp⟩
  · rw [if_neg he]
    exact ⟨(t.reverse.dropWhile pyWs).reverse, by simp⟩

/-- Everything the scanner asserts about one reported match. -/
def matchSpec (content : List Char) (m : Nat × List Char) : Prop :=
  (content.drop m.1).take 8 = headingLit ∧
  m.2 = ((content.drop m.1).drop 8).takeWhile Char.isDigit ∧
  m.2 ≠ []

/-- A reported match's slice, stripped, still starts with the full
heading `"## Page " ++ digits`. -/
theorem slice_keeps_heading (content : List Char) (p e : Nat) (ds : List Char)
    (hm : matchSpec content (p, ds)) (he : 8 + ds.length ≤ e - p) :
    ∃ t', pyStrip ((content.drop p).take (e - p)) = (headingLit ++ ds) ++ t' := by
  obtain ⟨h1, h2, h3⟩ := hm
  replace h2 : ds = ((content.drop p).drop 8).takeWhile Char.isDigit := h2
  have hr : content.drop p
      = (headingLit ++ ds) ++ ((content.drop p).drop 8).dropWhile Char.isDigit := by
    rw [List.append_assoc]
    conv_lhs => rw [← List.take_append_drop 8 (content.drop p)]
    rw [h1]
    congr 1
    conv_lhs =>
      rw [← List.takeWhile_append_dropWhile (p := Char.isDigit)
        (l := (content.drop p).drop 8)]
    rw [← h2]
  have hlen : (headingLit ++ ds).length = 8 + ds.length := by
    rw [List.length_append]
    rfl
  have htake : (content.drop p).take (e - p)
      = (headingLit ++ ds) ++
        ((((content.drop p).drop 8).dropWhile Char.isDigit).take
          (e - p - (8 + ds.length))) := by
    conv_lhs => rw [hr]
    rw [List.take_append_eq_append_take, List.take_of_length_le (by omega), hlen]
  rw [htake]
  apply pyStrip_keeps
  · simp [headingLit]
  · intro d hd
    have : (headingLit ++ ds).head? = some '#' := by
      rw [show headingLit = '#' :: "# Page ".toList from by decide]
      rfl
    rw [this] at hd
    cases hd
    decide
  · intro d hd
    rw [List.getLast?_append] at hd
    have hds : ds.getLast? = some d := by
      cases hg : ds.getLast? with
      | none => exact absurd (List.getLast?_eq_none_iff.mp hg) h3
      | some d' =>
        rw [hg] at hd
        simpa using hd
    have hmem : d ∈ ds := List.mem_of_getLast?_eq_some hds
    rw [h2] at hmem
    exact pyWs_eq_false_of_isDigit d (List.mem_takeWhile_imp hmem)

/-! ### Soundness and ordering of the regex scan -/

theorem headMatch_some (s : List Char) (ds : List Char) (h : headMatch s = some ds) :
    s.take 8 = headingLit ∧ ds = (s.drop 8).takeWhile Char.isDigit ∧ ds ≠ [] := by
  unfold headMatch at h
  by_cases h1 : s.take 8 == headingLit
  · rw [if_pos h1] at h
    by_cases h2 : ((s.drop 8).takeWhile Char.isDigit).isEmpty
    · rw [if_pos h2] at h
      exact absurd h (by simp)
    · rw [if_neg h2] at h
      have hds : ds = (s.drop 8).takeWhile Char.isDigit := by
        cases h
        rfl
      refine ⟨by simpa using h1, hds, ?_⟩
      rw [hds]
      intro hnil
      rw [hnil] at h2
      exact h2 rfl
  · rw [if_neg h1] at h
    exact absurd h (by simp)

theorem scanAux_sound :
    ∀ (s : List Char) (pos skip : Nat) (m : Nat × List Char), m ∈ scanAux s pos skip →
      pos + skip ≤ m.1 ∧
      (s.drop (m.1 - pos)).take 8 = headingLit ∧
      m.2 = ((s.drop (m.1 - pos)).drop 8).takeWhile Char.isDigit ∧
      m.2 ≠ [] := by
  intro s
  induction s with
  | nil =>
    intro pos skip m h
    simp [scanAux] at h
  | cons c rest ih =>
    intro pos skip m h
    have shift : ∀ m' : Nat × List Char, pos + 1 ≤ m'.1 →
        ((rest.drop (m'.1 - (pos + 1))).take 8 = headingLit ∧
          m'.2 = ((rest.drop (m'.1 - (pos + 1))).drop 8).takeWhile Char.isDigit) →
        ((c :: rest).drop (m'.1 - pos)).take 8 = headingLit ∧
          m'.2 = (((c :: rest).drop (m'.1 - pos)).drop 8).takeWhile Char.isDigit := by
      intro m' hle hpair
      have hdrop : (c :: rest).drop (m'.1 - pos) = rest.drop (m'.1 - (pos + 1)) := by
        rw [show m'.1 - pos = (m'.1 - (pos + 1)) + 1 by omega, List.drop_succ_cons]
      rw [hdrop]
      exact hpair
    cases skip with
    | succ k =>
      have h' : m ∈ scanAux rest (pos + 1) k := h
      obtain ⟨hb, h1, h2, h3⟩ := ih (pos + 1) k m h'
      obtain ⟨g1, g2⟩ := shift m (by omega) ⟨h1, h2⟩
      exact ⟨by omega, g1, g2, h3⟩
    | zero =>
      cases hm : headMatch (c :: rest) with
      | none =>
        have h' : m ∈ scanAux rest (pos + 1) 0 := by
          rw [scanAux, hm] at h
          exact h
        obtain ⟨hb, h1, h2, h3⟩ := ih (pos + 1) 0 m h'
        obtain ⟨g1, g2⟩ := shift m (by omega) ⟨h1, h2⟩
        exact ⟨by omega, g1, g2, h3⟩
      | some ds =>
        rw [scanAux, hm] at h
        rcases List.mem_cons.mp h with rfl | h'
        · obtain ⟨g1, g2, g3⟩ := headMatch_some (c :: rest) ds hm
          refine ⟨by omega, ?_, ?_, g3⟩
          · rw [show (pos, ds).1 - pos = 0 by omega, List.drop_zero]
            exact g1
          · rw [show (pos, ds).1 - pos = 0 by omega, List.drop_zero]
            exact g2
        · obtain ⟨hb, h1, h2, h3⟩ := ih (pos + 1) (7 + ds.length) m h'
          obtain ⟨g1, g2⟩ := shift m (by omega) ⟨h1, h2⟩
          exact ⟨by omega, g1, g2, h3⟩

theorem scanAux_chain :
    ∀ (s : List Char) (pos skip : Nat),
      List.Chain' (fun a b : Nat × List Char => a.1 + 8 + a.2.length ≤ b.1)
        (scanAux s pos skip) := by
  intro s
  induction s with
  | nil => intro pos skip; simp [scanAux]
  | cons c rest ih =>
    intro pos skip
    cases skip with
    | succ k => exact ih (pos + 1) k
    | zero =>
      cases hm : headMatch (c :: rest) with
      | none =>
        rw [scanAux, hm]
        exact ih (pos + 1) 0
      | some ds =>
        rw [scanAux, hm]
        rw [List.chain'_cons']
        refine ⟨?_, ih (pos + 1) (7 + ds.length)⟩
        intro y hy
        have hmem : y ∈ scanAux rest (pos + 1) (7 + ds.length) :=
          List.mem_of_mem_head? hy
        have := (scanAux_sound rest (pos + 1) (7 + ds.length) y hmem).1
        show pos + 8 + ds.length ≤ y.1
        omega

/-- Every heading reported by `findHeadings` genuinely matches the
pattern at its reported position. -/
theorem findHeadings_sound (content : List Char) (m : Nat × List Char)
    (h : m ∈ findHeadings content) : matchSpec content m := by
  obtain ⟨_, h1, h2, h3⟩ := scanAux_sound content 0 0 m h
  rw [show m.1 - 0 = m.1 by omega] at h1 h2
  exact ⟨h1, h2, h3⟩

/-- The heading positions reported by `findHeadings` advance by at least
the full match length. -/
theorem findHeadings_chain (content : List Char) :
    List.Chain' (fun a b : Nat × List Char => a.1 + 8 + a.2.length ≤ b.1)
      (findHeadings content) :=
  scanAux_chain content 0 0

/-! ### `buildPages` on distinct keys is plain accumulation -/

theorem dictSet_append (d : List (Int × List Char)) (k : Int) (v : List Char)
    (h : ∀ p ∈ d, p.1 ≠ k) : dictSet d k v = d ++ [(k, v)] := by
  unfold dictSet
  rw [if_neg]
  intro hc
  obtain ⟨x, hx, hxk⟩ := List.any_eq_true.mp hc
  exact h x hx (by simpa using hxk)

theorem buildPages_eq_append (content : List Char) :
    ∀ (ms : List (Nat × List Char)) (d : List (Int × List Char)),
      ((entriesOf content ms).map Prod.fst).Nodup →
      (∀ k ∈ (entriesOf content ms).map Prod.fst, ∀ q ∈ d, q.1 ≠ k) →
      buildPages content ms d = d ++ entriesOf content ms := by
  intro ms
  induction ms with
  | nil =>
    intro d _ _
    simp [buildPages, entriesOf]
  | cons m rest ih =>
    intro d hnd hdisj
    obtain ⟨p, ds⟩ := m
    simp only [buildPages, entriesOf, List.map_cons] at hnd hdisj ⊢
    obtain ⟨hnotmem, hnd'⟩ := List.nodup_cons.mp hnd
    rw [dictSet_append d _ _ (by
      intro q hq
      exact hdisj _ (List.mem_cons_self _ _) q hq)]
    rw [ih (d ++ [((digitsToNat ds : Int) - 1,
        pyStrip ((content.drop p).take (nextStart content rest - p)))]) hnd' (by
      intro k hk q hq
      rcases List.mem_append.mp hq with hq | hq
      · exact hdisj k (List.mem_cons_of_mem _ hk) q hq
      · rcases List.mem_singleton.mp hq with rfl
        show (digitsToNat ds : Int) - 1 ≠ k
        intro heq
        exact hnotmem (heq ▸ hk))]
    simp

/-! ### The entries produced from a well-formed match list -/

theorem entriesOf_spec (content : List Char) :
    ∀ (ms : List (Nat × List Char)) (j : Nat),
      (∀ m ∈ ms, matchSpec content m) →
      List.Chain' (fun a b : Nat × List Char => a.1 + 8 + a.2.length ≤ b.1) ms →
      (∀ i (h : i < ms.length), (ms.get ⟨i, h⟩).2 = pad4 (j + i + 1)) →
      ((entriesOf content ms).map Prod.fst
          = (List.range' j ms.length).map Int.ofNat) ∧
      (∀ i (h : i < ms.length), ∃ v a, (entriesOf content ms).get? i
          = some (Int.ofNat (j + i), v)
          ∧ v = (headingLit ++ pad4 (j + i + 1)) ++ a) := by
  intro ms
  induction ms with
  | nil =>
    intro j _ _ _
    constructor
    · simp [entriesOf]
    · intro i h
      simp at h
  | cons m rest ih =>
    intro j hsound hchain hds
    obtain ⟨p, ds⟩ := m
    have hd0 : ds = pad4 (j + 1) := by
      have h0 := hds 0 (by simp)
      simpa using h0
    have hm : matchSpec content (p, ds) := hsound (p, ds) (List.mem_cons_self _ _)
    have hbound : 8 + ds.length ≤ nextStart content rest - p := by
      cases rest with
      | nil =>
        obtain ⟨h1, h2, _⟩ := hm
        replace h1 : (content.drop p).take 8 = headingLit := h1
        replace h2 : ds = ((content.drop p).drop 8).takeWhile Char.isDigit := h2
        have hlen8 : 8 ≤ (content.drop p).length := by
          have hl := congrArg List.length h1
          rw [List.length_take] at hl
          have hlit : headingLit.length = 8 := by decide
          rw [hlit] at hl
          omega
        have hdslen : ds.length ≤ (content.drop p).length - 8 := by
          rw [h2]
          have hsub := (List.takeWhile_sublist
            (l := (content.drop p).drop 8) Char.isDigit).length_le
          rw [List.length_drop] at hsub
          exact hsub
        rw [List.length_drop] at hlen8 hdslen
        show 8 + ds.length ≤ content.length - p
        omega
      | cons m' rest' =>
        obtain ⟨q, ds'⟩ := m'
        have hr := (List.chain'_cons.mp hchain).1
        replace hr : p + 8 + ds.length ≤ q := hr
        show 8 + ds.length ≤ q - p
        omega
    have hkey : ((digitsToNat ds : Int) - 1) = Int.ofNat j := by
      rw [hd0, digitsToNat_pad4, Int.ofNat_eq_coe]
      push_cast
      ring
    obtain ⟨tl, htl⟩ :=
      slice_keeps_heading content p (nextStart content rest) ds hm hbound
    have ihr := ih (j + 1)
      (fun m' hm' => hsound m' (List.mem_cons_of_mem _ hm'))
      hchain.tail
      (fun i h => by
        have hi := hds (i + 1) (by simp; omega)
        have hg : ((p, ds) :: rest).get ⟨i + 1, by simp; omega⟩
            = rest.get ⟨i, h⟩ := rfl
        rw [hg] at hi
        rwa [show j + (i + 1) + 1 = j + 1 + i + 1 by omega] at hi)
    constructor
    · simp only [entriesOf, List.map_cons, List.length_cons]
      rw [List.range'_succ, List.map_cons, ihr.1, hkey]
    · intro i h
      cases i with
      | zero =>
        refine ⟨pyStrip ((content.drop p).take (nextStart content rest - p)),
          tl, ?_, ?_⟩
        · show some ((digitsToNat ds : Int) - 1,
            pyStrip ((content.drop p).take (nextStart content rest - p))) = _
          rw [hkey, Nat.add_zero]
        · rw [htl, hd0]
      | succ i =>
        have h' : i < rest.length := by
          simp at h
          omega
        obtain ⟨v, a, hv1, hv2⟩ := ihr.2 i h'
        refine ⟨v, a, ?_, ?_⟩
        · show (entriesOf content rest).get? i = _
          rw [hv1]
          rw [show j + 1 + i = j + (i + 1) by omega]
        · rwa [show j + 1 + i + 1 = j + (i + 1) + 1 by omega] at hv2

/-- Claim C3: parsing a well-formed extraction-pipeline output whose
heading matches carry exactly the digit groups `0001 … {K:04d}` (in
order, one per page, no duplicates) yields a map whose keys are exactly
`0 … K-1` in order, and the value at key `i` contains the heading text
`Page` followed by the 4-digit zero-padded `i+1`, verbatim. -/
theorem claim_C3 (content : List Char) (ms : List (Nat × List Char))
    (hms : findHeadings content = ms) (hne : ms ≠ [])
    (hds : ∀ i (h : i < ms.length), (ms.get ⟨i, h⟩).2 = pad4 (i + 1)) :
    ((parsePages content).map Prod.fst = (List.range ms.length).map Int.ofNat) ∧
    (∀ i (h : i < ms.length), ∃ v b c, (parsePages content).get? i
        = some (Int.ofNat i, v)
        ∧ v = b ++ "Page ".toList ++ pad4 (i + 1) ++ c) := by
  have hsound : ∀ m ∈ ms, matchSpec content m := fun m hm =>
    findHeadings_sound content m (hms ▸ hm)
  have hchain : List.Chain' (fun a b : Nat × List Char => a.1 + 8 + a.2.length ≤ b.1) ms :=
    hms ▸ findHeadings_chain content
  have hds' : ∀ i (h : i < ms.length), (ms.get ⟨i, h⟩).2 = pad4 (0 + i + 1) := by
    intro i h
    rw [hds i h, Nat.zero_add]
  have hspec := entriesOf_spec content ms 0 hsound hchain hds'
  have hparse : parsePages content = entriesOf content ms := by
    unfold parsePages
    rw [hms]
    have hie : ms.isEmpty = false := List.isEmpty_eq_false.mpr hne
    show (if ms.isEmpty = true then [((0 : Int), content)]
      else buildPages content ms []) = entriesOf content ms
    rw [hie]
    simp only [Bool.false_eq_true, if_false]
    rw [buildPages_eq_append content ms []
      (by
        rw [hspec.1]
        exact List.Nodup.map (fun a b hab => Int.ofNat.inj hab)
          (List.nodup_range' 0 ms.length))
      (by
        intro k _ q hq
        simp at hq)]
    simp
  constructor
  · rw [hparse, hspec.1, List.range_eq_range']
  · intro i h
    obtain ⟨v, a, hv1, hv2⟩ := hspec.2 i h
    refine ⟨v, "## ".toList, a, ?_, ?_⟩
    · rw [hparse, hv1, Nat.zero_add]
    · rw [hv2, Nat.zero_add]
      rw [show headingLit = "## ".toList ++ "Page ".toList from by decide]

/-- Witness for C3 on a one-section pipeline output. -/
theorem claim_C3_witness :
    findHeadings "## Page 0001\nHello".toList = [(0, ['0', '0', '0', '1'])] ∧
    ([((0 : Nat), ['0', '0', '0', '1'])] ≠ ([] : List (Nat × List Char))) ∧
    (∀ i (h : i < 1),
      (([((0 : Nat), ['0', '0', '0', '1'])].get ⟨i, h⟩).2 = pad4 (i + 1))) ∧
    (parsePages "## Page 0001\nHello".toList).map Prod.fst
      = (List.range 1).map Int.ofNat ∧
    (∀ i (h : i < 1), ∃ v b c, (parsePages "## Page 0001\nHello".toList).get? i
        = some (Int.ofNat i, v)
        ∧ v = b ++ "Page ".toList ++ pad4 (i + 1) ++ c) :=
  have hthm := claim_C3 "## Page 0001\nHello".toList [(0, ['0', '0', '0', '1'])]
    (by decide) (by decide) (by decide)
  ⟨by decide, by decide, by decide, hthm.1, hthm.2⟩

end PdfOcr
